import Mathlib

/-!
Verification of the core client-side engine of the minio-plus Obsidian plugin:
the bounded URL/image cache (`src/utils/ImageCache.ts`), the search engine
(`src/services/SearchService.ts`), the remote-directory synchronizer
(`SyncService`), the lazy image loader (`src/services/LazyImageService.ts`)
and the gallery view coordinator (`MinioGalleryView`).

Each definition is a shallow embedding of the corresponding TypeScript
function; machine time is passed explicitly as a `Nat` millisecond clock
(`Date.now()`), JavaScript `Map`s become insertion-ordered association lists
with JS `Map` update semantics, and fallible operations return `Except`.
-/

/-! ## Bounded image cache (`src/utils/ImageCache.ts`) -/

/-- One value of the static `imageCache` map: `{data, timestamp, size}`. -/
structure CEntry where
  data : String
  timestamp : Nat
  size : Nat
deriving Repr, DecidableEq

/-- The in-memory cache `Map<string, CEntry>`, as an insertion-ordered
association list (JS `Map` iteration order is insertion order). -/
abbrev CacheMap := List (String × CEntry)

/-- Models `Map.get`: the value stored at `k`, if any.  Keys are unique, so the
first hit is the entry. -/
def mapGet (m : CacheMap) (k : String) : Option CEntry :=
  (m.find? (fun p => p.1 == k)).map (fun p => p.2)

/-- Models `Map.delete`: removes the entry with key `k` (if present). -/
def mapDelete (m : CacheMap) (k : String) : CacheMap :=
  m.filter (fun p => p.1 != k)

/-- Models `Map.set`: updating an existing key keeps its position; a new key is
appended at the end (JS `Map` semantics). -/
def mapSet (m : CacheMap) (k : String) (v : CEntry) : CacheMap :=
  if m.any (fun p => p.1 == k) then
    m.map (fun p => if p.1 == k then (k, v) else p)
  else
    m ++ [(k, v)]

/-- Models `CACHE_EXPIRY = 12 * 60 * 60 * 1000` (12 hours, in ms). -/
def CACHE_EXPIRY : Nat := 12 * 60 * 60 * 1000

/-- Models `MAX_CACHE_SIZE = 50 * 1024 * 1024` (50 MB). -/
def MAX_CACHE_SIZE : Nat := 50 * 1024 * 1024

/-- Models `ImageCache.getTotalCacheSize`: sum of the `size` fields. -/
def getTotalCacheSize (m : CacheMap) : Nat :=
  m.foldl (fun acc p => acc + p.2.size) 0

/-- The eviction target `MAX_CACHE_SIZE * 0.7` of `cleanupOldCache`.
`52428800 * 0.7` evaluates to exactly `36700160.0` in IEEE double
arithmetic, so the JS comparison is an exact integer comparison with
`7 * MAX_CACHE_SIZE / 10`. -/
def cleanupTargetSize : Nat := 7 * MAX_CACHE_SIZE / 10

/-- Stable insertion of an entry into a list sorted ascending by
`timestamp`; an element is put after every strictly smaller timestamp and
after earlier-listed equal timestamps, which is exactly what the stable JS
`Array.sort((a, b) => a[1].timestamp - b[1].timestamp)` produces. -/
def insertByTimestamp (x : String × CEntry) : List (String × CEntry) → List (String × CEntry)
  | [] => [x]
  | y :: ys =>
    if y.2.timestamp < x.2.timestamp then y :: insertByTimestamp x ys
    else x :: y :: ys

/-- Models `Array.from(this.imageCache.entries()).sort((a, b) => a[1].timestamp - b[1].timestamp)`:
stable ascending sort by timestamp. -/
def sortByTimestamp (l : List (String × CEntry)) : List (String × CEntry) :=
  l.foldr insertByTimestamp []

/-- The `for (const [key, entry] of entries)` loop of
`ImageCache.cleanupOldCache`: `m` is the live map, `freed` the running
`freedSize`.  Note the loop condition reads `getTotalCacheSize()` of the
*current* map (which already reflects the deletions) and still subtracts
`freedSize`.  JS computes `total - freed` as a possibly negative number;
since the target is nonnegative, truncated `Nat` subtraction takes the same
branch. -/
def cleanupLoop : List (String × CEntry) → CacheMap → Nat → CacheMap
  | [], m, _ => m
  | (k, e) :: rest, m, freed =>
    if getTotalCacheSize m - freed ≤ cleanupTargetSize then m
    else cleanupLoop rest (mapDelete m k) (freed + e.size)

/-- Models `ImageCache.cleanupOldCache`: sort entries by timestamp ascending and
delete oldest-first until the loop condition stops. -/
def cleanupOldCache (m : CacheMap) : CacheMap :=
  cleanupLoop (sortByTimestamp m) m 0

/-- Models `new Blob([data]).size`: the UTF-8 byte length of the string. -/
def blobSize (data : String) : Nat := data.utf8ByteSize

/-- Models `ImageCache.set`, with the `Blob` size supplied by the caller (the
wrapper `cacheSet` computes it): if the running total plus the new entry's
size exceeds `MAX_CACHE_SIZE`, run `cleanupOldCache` first, then insert the
entry with the current time.  (The `dirty` flag and debounced persistence
are not modelled; they do not affect the in-memory map.) -/
def cacheSetSized (m : CacheMap) (k : String) (data : String) (dataSize now : Nat) : CacheMap :=
  let m1 := if getTotalCacheSize m + dataSize > MAX_CACHE_SIZE then cleanupOldCache m else m
  mapSet m1 k ⟨data, now, dataSize⟩

/-- Models `ImageCache.set(key, data)` at clock `now`. -/
def cacheSet (m : CacheMap) (k : String) (data : String) (now : Nat) : CacheMap :=
  cacheSetSized m k data (blobSize data) now

/-- Models `ImageCache.get(key)` at clock `now`: returns the value (or `none` on
miss) together with the map after the expired-entry deletion side effect. -/
def cacheGet (m : CacheMap) (k : String) (now : Nat) : Option String × CacheMap :=
  match mapGet m k with
  | none => (none, m)
  | some e =>
    if now - e.timestamp > CACHE_EXPIRY then (none, mapDelete m k)
    else (some e.data, m)

/-- Models `ImageCache.has(key)` at clock `now`: existence check with the same
expiry semantics and deletion side effect as `get`. -/
def cacheHas (m : CacheMap) (k : String) (now : Nat) : Bool × CacheMap :=
  match mapGet m k with
  | none => (false, m)
  | some e =>
    if now - e.timestamp > CACHE_EXPIRY then (false, mapDelete m k)
    else (true, m)

/-! ### Map lemmas -/

lemma find?_mapSet (k : String) (v : CEntry) (m : CacheMap) :
    (mapSet m k v).find? (fun p => p.1 == k) = some (k, v) := by
  unfold mapSet
  split
  case isTrue h =>
    induction m with
    | nil => simp at h
    | cons p m ih =>
      by_cases hp : (p.1 == k) = true
      · simp only [List.map_cons]
        rw [if_pos hp, List.find?_cons_of_pos _ (by simp)]
      · simp only [List.any_cons, hp, Bool.false_or] at h
        have hp' : (p.1 == k) = false := by simpa using hp
        simp only [List.map_cons]
        rw [if_neg hp]
        simp only [List.find?_cons, hp']
        exact ih h
  case isFalse h =>
    induction m with
    | nil => simp
    | cons p m ih =>
      simp only [List.any_cons, Bool.or_eq_true, not_or] at h
      have hp' : (p.1 == k) = false := by simpa using h.1
      rw [List.cons_append]
      simp only [List.find?_cons, hp']
      exact ih h.2

lemma mapGet_mapSet_self (k : String) (v : CEntry) (m : CacheMap) :
    mapGet (mapSet m k v) k = some v := by
  simp [mapGet, find?_mapSet]

lemma mapGet_mapDelete_self (m : CacheMap) (k : String) :
    mapGet (mapDelete m k) k = none := by
  simp only [mapGet, mapDelete, Option.map_eq_none']
  rw [List.find?_eq_none]
  intro p hp
  have := (List.mem_filter.mp hp).2
  simpa [bne] using this

/-! ### Cache claim theorems -/

/-- C5: an entry inserted at time `t` is treated as absent by `get`/`has`
strictly after `t + CACHE_EXPIRY` and is deleted from the map as a side
effect; queried at or before `t + CACHE_EXPIRY`, `get` returns its value. -/
theorem cache_expiry_semantics (m : CacheMap) (k : String) (e : CEntry)
    (now1 now2 : Nat) (hmem : mapGet m k = some e)
    (h1 : e.timestamp + CACHE_EXPIRY < now1)
    (h2 : now2 ≤ e.timestamp + CACHE_EXPIRY) :
    cacheGet m k now1 = (none, mapDelete m k) ∧
    cacheHas m k now1 = (false, mapDelete m k) ∧
    mapGet (mapDelete m k) k = none ∧
    cacheGet m k now2 = (some e.data, m) := by
  have hgt : now1 - e.timestamp > CACHE_EXPIRY := by omega
  have hle : ¬ (now2 - e.timestamp > CACHE_EXPIRY) := by omega
  refine ⟨?_, ?_, mapGet_mapDelete_self m k, ?_⟩
  · simp [cacheGet, hmem, hgt]
  · simp [cacheHas, hmem, hgt]
  · simp [cacheGet, hmem, hle]

theorem cache_expiry_semantics_witness :
    mapGet [("k", (⟨"url", 5, 3⟩ : CEntry))] "k" = some ⟨"url", 5, 3⟩ ∧
    (5 : Nat) + CACHE_EXPIRY < CACHE_EXPIRY + 6 ∧
    (5 : Nat) ≤ 5 + CACHE_EXPIRY ∧
    (cacheGet [("k", ⟨"url", 5, 3⟩)] "k" (CACHE_EXPIRY + 6) =
        (none, mapDelete [("k", ⟨"url", 5, 3⟩)] "k") ∧
      cacheHas [("k", ⟨"url", 5, 3⟩)] "k" (CACHE_EXPIRY + 6) =
        (false, mapDelete [("k", ⟨"url", 5, 3⟩)] "k") ∧
      mapGet (mapDelete [("k", ⟨"url", 5, 3⟩)] "k") "k" = none ∧
      cacheGet [("k", ⟨"url", 5, 3⟩)] "k" 5 = (some "url", [("k", ⟨"url", 5, 3⟩)])) :=
  ⟨by decide, by decide, by decide,
    cache_expiry_semantics _ "k" ⟨"url", 5, 3⟩ _ _ (by decide) (by decide) (by decide)⟩

/-- C6: `set(k, v)` followed by `get(k)` within the TTL returns exactly `v`,
whether or not the `set` triggered an eviction. -/
theorem cache_round_trip (m : CacheMap) (k data : String) (now now' : Nat)
    (h : now' ≤ now + CACHE_EXPIRY) :
    (cacheGet (cacheSet m k data now) k now').1 = some data := by
  have h1 : mapGet (cacheSet m k data now) k = some ⟨data, now, blobSize data⟩ := by
    unfold cacheSet cacheSetSized
    exact mapGet_mapSet_self k _ _
  have hle : ¬ (now' - now > CACHE_EXPIRY) := by omega
  simp [cacheGet, h1, hle]

theorem cache_round_trip_witness :
    (3 : Nat) ≤ 3 + CACHE_EXPIRY ∧
    (cacheGet (cacheSet [] "k" "v" 3) "k" 3).1 = some "v" :=
  ⟨by decide, cache_round_trip [] "k" "v" 3 3 (by decide)⟩

/-- C10: `has` agrees with `get` at the same instant: `has` returns `true`
exactly when `get` returns a value, and both leave the cache in the same
state (including the expired-entry deletion side effect). -/
theorem cache_get_has_agree (m : CacheMap) (k : String) (now : Nat) :
    (cacheGet m k now).1.isSome = (cacheHas m k now).1 ∧
    (cacheGet m k now).2 = (cacheHas m k now).2 := by
  unfold cacheGet cacheHas
  cases mapGet m k with
  | none => simp
  | some e => by_cases h : now - e.timestamp > CACHE_EXPIRY <;> simp [h]

/-- The cache state produced by five `set` calls whose values have Blob
size 10485760 (10 MB) each, at timestamps 1..5: total size is exactly
`MAX_CACHE_SIZE`. -/
def c1State : CacheMap :=
  [("a", ⟨"A", 1, 10485760⟩), ("b", ⟨"B", 2, 10485760⟩),
   ("c", ⟨"C", 3, 10485760⟩), ("d", ⟨"D", 4, 10485760⟩),
   ("e", ⟨"E", 5, 10485760⟩)]

/-- C1 (violated by the code): `cleanupOldCache` subtracts `freedSize` from
a total that already reflects the deletions, so it stops early.  From a
cache holding five 10 MB entries (reachable by five `set` calls, none of
which triggers eviction), a sixth 1-byte `set` triggers eviction, but
eviction removes only one entry and leaves 41943040 bytes — above the
36700160-byte (`0.7 × MAX_CACHE_SIZE`) target the code's own comment and
the spec require. -/
theorem cleanup_exceeds_target :
    cacheSetSized (cacheSetSized (cacheSetSized (cacheSetSized (cacheSetSized
        [] "a" "A" 10485760 1) "b" "B" 10485760 2) "c" "C" 10485760 3)
        "d" "D" 10485760 4) "e" "E" 10485760 5 = c1State ∧
    getTotalCacheSize c1State = MAX_CACHE_SIZE ∧
    getTotalCacheSize c1State + 1 > MAX_CACHE_SIZE ∧
    cacheSetSized c1State "f" "x" 1 6 =
      mapSet (cleanupOldCache c1State) "f" ⟨"x", 6, 1⟩ ∧
    cleanupOldCache c1State = c1State.tail ∧
    getTotalCacheSize (cleanupOldCache c1State) = 41943040 ∧
    cleanupTargetSize = 36700160 ∧
    getTotalCacheSize (cleanupOldCache c1State) > cleanupTargetSize := by
  decide

/-! ## Remote directory synchronizer (`SyncService` in `src/services/SearchService.ts`) -/

/-- A `MinioObject` (`src/types/gallery.ts`): `{name: string, lastModified?: Date}`.
The optional `Date` is modelled as an optional millisecond timestamp. -/
structure MObj where
  name : String
  lastModified : Option Nat
deriving Repr, DecidableEq

/-- A JS `Map<string, Date | undefined>` as its insertion-ordered entry list. -/
abbrev ObjMap := List (String × Option Nat)

/-- One step of `new Map(list.map(obj => [obj.name, obj.lastModified]))`:
re-setting an existing key keeps its position and overwrites the value;
a new key is appended. -/
def jsInsert (acc : ObjMap) (o : MObj) : ObjMap :=
  if acc.any (fun p => p.1 == o.name) then
    acc.map (fun p => if p.1 == o.name then (o.name, o.lastModified) else p)
  else
    acc ++ [(o.name, o.lastModified)]

/-- Models `new Map(list.map(obj => [obj.name, obj.lastModified]))`. -/
def jsMapEntries (l : List MObj) : ObjMap :=
  l.foldl jsInsert []

/-- Models `Map.get(k)`: `none` models JS `undefined` (key absent); `some none`
is a present key whose stored `lastModified` is `undefined`. -/
def jsMapGet (m : ObjMap) (k : String) : Option (Option Nat) :=
  (m.find? (fun p => p.1 == k)).map (fun p => p.2)

/-- Models `Map.has(k)`. -/
def jsMapHas (m : ObjMap) (k : String) : Bool :=
  m.any (fun p => p.1 == k)

/-- Models `remote.find(obj => obj.name === name)!` — the `!` assertion is modelled
by a default that never occurs on the paths `detectChanges` takes. -/
def findObj (l : List MObj) (nm : String) : MObj :=
  (l.find? (fun o => o.name == nm)).getD ⟨nm, none⟩

/-- The first loop of `SyncService.detectChanges` over the remote map's
entries: `if (!localModified)` is true both when the key is absent and when
the stored `lastModified` is `undefined` (a `Date` is always truthy);
otherwise `remoteModified?.getTime() !== localModified?.getTime()` decides
"modified".  Returns `(added, modified, hasChanges-set-by-this-loop)`. -/
def scanRemote (localMap : ObjMap) (remote : List MObj) :
    List (String × Option Nat) → List MObj × List MObj × Bool
  | [] => ([], [], false)
  | (nm, rmod) :: rest =>
    let r := scanRemote localMap remote rest
    match jsMapGet localMap nm with
    | none => (findObj remote nm :: r.1, r.2.1, true)
    | some none => (findObj remote nm :: r.1, r.2.1, true)
    | some (some lt) =>
      if rmod != some lt then (r.1, findObj remote nm :: r.2.1, true) else r

/-- The second loop of `detectChanges` over the local map's keys: a key the
remote map lacks is "deleted".  Returns `(deleted, hasChanges-set-here)`. -/
def scanLocal (remoteMap : ObjMap) :
    List (String × Option Nat) → List String × Bool
  | [] => ([], false)
  | (nm, _) :: rest =>
    let r := scanLocal remoteMap rest
    if jsMapHas remoteMap nm then r else (nm :: r.1, true)

/-- Models `SyncChanges` (`src/types/gallery.ts`). -/
structure SyncChanges where
  hasChanges : Bool
  added : List MObj
  deleted : List String
  modified : List MObj
deriving Repr, DecidableEq

/-- Models `SyncService.detectChanges(local, remote)`. -/
def detectChanges (lo ro : List MObj) : SyncChanges :=
  let localMap := jsMapEntries lo
  let remoteMap := jsMapEntries ro
  let s1 := scanRemote localMap ro remoteMap
  let s2 := scanLocal remoteMap localMap
  ⟨s1.2.2 || s2.2, s1.1, s2.1, s1.2.1⟩

/-- Models `SyncService.sync(localObjects)`, with the outcome of
`fetchRemoteObjects()` supplied as an `Except` (the stream either completes
with the sorted listing or errors).  A fetch error is logged and rethrown
with nothing mutated; on success the delta is computed and the cache
entries of deleted objects are invalidated. -/
def syncRun (localObjects : List MObj) (fetched : Except String (List MObj))
    (cache : CacheMap) :
    Except String ((List MObj × SyncChanges) × CacheMap) :=
  match fetched with
  | .error e => .error e
  | .ok remoteObjects =>
    let changes := detectChanges localObjects remoteObjects
    let cache' :=
      if changes.hasChanges then
        changes.deleted.foldl (fun c n => mapDelete c n) cache
      else cache
    .ok ((remoteObjects, changes), cache')

/-! ### Sync lemmas -/

/-- The `lastModified` the first loop sees for a key: `undefined` (absent
key or stored `undefined`) collapses to `none`, like `!localModified`. -/
def localTime (m : ObjMap) (k : String) : Option Nat :=
  (jsMapGet m k).bind id

/-- The condition under which the first loop pushes a key to `added`. -/
def isAddKey (m : ObjMap) (p : String × Option Nat) : Bool :=
  (localTime m p.1).isNone

/-- The condition under which the first loop pushes a key to `modified`. -/
def isModKey (m : ObjMap) (p : String × Option Nat) : Bool :=
  match localTime m p.1 with
  | none => false
  | some lt => p.2 != some lt

lemma scanRemote_eq (lm : ObjMap) (ro : List MObj) (entries : List (String × Option Nat)) :
    scanRemote lm ro entries =
      ((entries.filter (isAddKey lm)).map (fun p => findObj ro p.1),
       (entries.filter (isModKey lm)).map (fun p => findObj ro p.1),
       entries.any (fun p => isAddKey lm p || isModKey lm p)) := by
  induction entries with
  | nil => rfl
  | cons p rest ih =>
    obtain ⟨nm, rmod⟩ := p
    simp only [scanRemote, ih]
    cases hg : jsMapGet lm nm with
    | none =>
      have ha : isAddKey lm (nm, rmod) = true := by simp [isAddKey, localTime, hg]
      have hm : isModKey lm (nm, rmod) = false := by simp [isModKey, localTime, hg]
      simp [List.filter_cons, ha, hm]
    | some v =>
      cases v with
      | none =>
        have ha : isAddKey lm (nm, rmod) = true := by simp [isAddKey, localTime, hg]
        have hm : isModKey lm (nm, rmod) = false := by simp [isModKey, localTime, hg]
        simp [List.filter_cons, ha, hm]
      | some lt =>
        have ha : isAddKey lm (nm, rmod) = false := by simp [isAddKey, localTime, hg]
        by_cases hb : (rmod != some lt) = true
        · have hm : isModKey lm (nm, rmod) = true := by
            simp [isModKey, localTime, hg, hb]
          simp [List.filter_cons, ha, hm, hb]
        · have hb' : (rmod != some lt) = false := by simpa using hb
          have hm : isModKey lm (nm, rmod) = false := by
            simp [isModKey, localTime, hg, hb']
          simp [List.filter_cons, ha, hm, hb']

lemma scanLocal_eq (rm : ObjMap) (entries : List (String × Option Nat)) :
    scanLocal rm entries =
      ((entries.filter (fun p => !jsMapHas rm p.1)).map (fun p => p.1),
       entries.any (fun p => !jsMapHas rm p.1)) := by
  induction entries with
  | nil => rfl
  | cons p rest ih =>
    obtain ⟨nm, v⟩ := p
    simp only [scanLocal, ih]
    by_cases hh : jsMapHas rm nm = true
    · simp [List.filter_cons, hh]
    · have hh' : jsMapHas rm nm = false := by simpa using hh
      simp [List.filter_cons, hh']

/-- Models `detectChanges` in closed form. -/
lemma detectChanges_eq (lo ro : List MObj) :
    detectChanges lo ro =
      ⟨(jsMapEntries ro).any
          (fun p => isAddKey (jsMapEntries lo) p || isModKey (jsMapEntries lo) p)
        || (jsMapEntries lo).any (fun p => !jsMapHas (jsMapEntries ro) p.1),
       ((jsMapEntries ro).filter (isAddKey (jsMapEntries lo))).map (fun p => findObj ro p.1),
       ((jsMapEntries lo).filter (fun p => !jsMapHas (jsMapEntries ro) p.1)).map (fun p => p.1),
       ((jsMapEntries ro).filter (isModKey (jsMapEntries lo))).map (fun p => findObj ro p.1)⟩ := by
  simp only [detectChanges, scanRemote_eq, scanLocal_eq]

lemma findObj_name (l : List MObj) (nm : String) : (findObj l nm).name = nm := by
  unfold findObj
  cases hf : l.find? (fun o => o.name == nm) with
  | none => rfl
  | some o => simpa using List.find?_some hf

lemma jsInsert_fst (o : MObj) (q : String × Option Nat) :
    (if (q.1 == o.name) = true then (o.name, o.lastModified) else q).1 = q.1 := by
  split
  case isTrue h => simpa using (by simpa using h : q.1 = o.name).symm
  case isFalse _ => rfl

lemma mem_jsInsert {acc : ObjMap} {o : MObj} {p : String × Option Nat}
    (h : p ∈ jsInsert acc o) :
    p ∈ acc ∨ (p.1 = o.name ∧ p.2 = o.lastModified) := by
  unfold jsInsert at h
  split at h
  · obtain ⟨q, hq, rfl⟩ := List.mem_map.mp h
    by_cases hqo : (q.1 == o.name) = true
    · right
      rw [if_pos hqo]
      exact ⟨rfl, rfl⟩
    · left
      rwa [if_neg hqo]
  · rcases List.mem_append.mp h with h | h
    · exact Or.inl h
    · right
      have : p = (o.name, o.lastModified) := by simpa using h
      rw [this]
      exact ⟨rfl, rfl⟩

lemma mem_foldl_jsInsert {p : String × Option Nat} {l : List MObj} :
    ∀ acc, p ∈ l.foldl jsInsert acc →
      (∃ o ∈ l, p.1 = o.name ∧ p.2 = o.lastModified) ∨ p ∈ acc := by
  induction l with
  | nil =>
    intro acc h
    right
    simpa using h
  | cons o l ih =>
    intro acc h
    rw [List.foldl_cons] at h
    rcases ih (jsInsert acc o) h with h1 | h1
    · obtain ⟨o', ho', hh⟩ := h1
      exact Or.inl ⟨o', List.mem_cons_of_mem _ ho', hh⟩
    · rcases mem_jsInsert h1 with h2 | h2
      · exact Or.inr h2
      · exact Or.inl ⟨o, List.mem_cons_self o l, h2⟩

lemma mem_entries_source {l : List MObj} {p : String × Option Nat}
    (hp : p ∈ jsMapEntries l) :
    ∃ o ∈ l, p.1 = o.name ∧ p.2 = o.lastModified := by
  rcases mem_foldl_jsInsert [] hp with h1 | h1
  · exact h1
  · simp at h1

lemma jsMapHas_jsInsert (acc : ObjMap) (o : MObj) (k : String) :
    jsMapHas (jsInsert acc o) k = (jsMapHas acc k || (o.name == k)) := by
  unfold jsInsert jsMapHas
  split
  case isTrue h =>
    rw [List.any_map]
    have hfun : ((fun p : String × Option Nat => p.1 == k) ∘
        (fun p => if (p.1 == o.name) = true then (o.name, o.lastModified) else p)) =
        (fun p : String × Option Nat => p.1 == k) := by
      funext q
      simp only [Function.comp]
      rw [jsInsert_fst]
    rw [hfun]
    by_cases hk : (o.name == k) = true
    · have hkeq : o.name = k := by simpa using hk
      obtain ⟨q, hq, hqo⟩ := List.any_eq_true.mp h
      have : acc.any (fun p => p.1 == k) = true :=
        List.any_eq_true.mpr ⟨q, hq, by rw [← hkeq]; exact hqo⟩
      simp [this, hk]
    · have hk' : (o.name == k) = false := by simpa using hk
      simp [hk']
  case isFalse h =>
    rw [List.any_append]
    simp

lemma jsMapHas_entries (l : List MObj) (k : String) :
    jsMapHas (jsMapEntries l) k = l.any (fun o => o.name == k) := by
  suffices h : ∀ acc, jsMapHas (l.foldl jsInsert acc) k =
      (acc.any (fun p => p.1 == k) || l.any (fun o => o.name == k)) by
    have := h []
    simpa [jsMapEntries, jsMapHas] using this
  induction l with
  | nil =>
    intro acc
    simp [jsMapHas]
  | cons o l ih =>
    intro acc
    rw [List.foldl_cons, ih (jsInsert acc o)]
    have := jsMapHas_jsInsert acc o k
    unfold jsMapHas at this
    rw [this]
    simp [Bool.or_assoc, Bool.or_comm (o.name == k)]

lemma keysNodup_jsInsert (acc : ObjMap) (o : MObj)
    (h : (acc.map (fun p => p.1)).Nodup) :
    ((jsInsert acc o).map (fun p => p.1)).Nodup := by
  unfold jsInsert
  split
  case isTrue _ =>
    rw [List.map_map]
    have hfun : ((fun p : String × Option Nat => p.1) ∘
        (fun p => if (p.1 == o.name) = true then (o.name, o.lastModified) else p)) =
        (fun p : String × Option Nat => p.1) := by
      funext q
      simp only [Function.comp]
      rw [jsInsert_fst]
    rwa [hfun]
  case isFalse hf =>
    rw [List.map_append]
    have hany : acc.any (fun p => p.1 == o.name) = false := by
      cases hb : acc.any (fun p => p.1 == o.name) with
      | false => rfl
      | true => exact absurd hb hf
    have hnotin : o.name ∉ acc.map (fun p => p.1) := by
      intro hmem
      obtain ⟨q, hq, hqe⟩ := List.mem_map.mp hmem
      exact List.any_eq_false.mp hany q hq (by simp [hqe])
    simp [List.nodup_append, h, List.disjoint_singleton, hnotin]

lemma keysNodup_entries (l : List MObj) :
    ((jsMapEntries l).map (fun p => p.1)).Nodup := by
  suffices h : ∀ acc : ObjMap, (acc.map (fun p => p.1)).Nodup →
      ((l.foldl jsInsert acc).map (fun p => p.1)).Nodup from h [] (by simp)
  induction l with
  | nil =>
    intro acc hacc
    simpa using hacc
  | cons o l ih =>
    intro acc hacc
    rw [List.foldl_cons]
    exact ih (jsInsert acc o) (keysNodup_jsInsert acc o hacc)

lemma jsMapGet_of_mem {m : ObjMap} (hnd : (m.map (fun p => p.1)).Nodup)
    {p : String × Option Nat} (hp : p ∈ m) : jsMapGet m p.1 = some p.2 := by
  induction m with
  | nil => cases hp
  | cons q m ih =>
    rcases List.mem_cons.mp hp with rfl | hp'
    · unfold jsMapGet
      rw [List.find?_cons_of_pos _ (by simp)]
      rfl
    · rw [List.map_cons] at hnd
      have hnd' := List.nodup_cons.mp hnd
      have hne : (q.1 == p.1) = false := by
        simp only [beq_eq_false_iff_ne, ne_eq]
        intro he
        exact hnd'.1 (he ▸ List.mem_map.mpr ⟨p, hp', rfl⟩)
      unfold jsMapGet
      simp only [List.find?_cons, hne]
      exact ih hnd'.2 hp'

lemma jsMapGet_eq_none {m : ObjMap} {k : String} (h : jsMapHas m k = false) :
    jsMapGet m k = none := by
  unfold jsMapHas at h
  unfold jsMapGet
  rw [List.find?_eq_none.mpr]
  · rfl
  · intro p hp
    exact List.any_eq_false.mp h p hp

lemma mem_of_jsMapGet {m : ObjMap} {k : String} {v : Option Nat}
    (h : jsMapGet m k = some v) : (k, v) ∈ m := by
  unfold jsMapGet at h
  rw [Option.map_eq_some'] at h
  obtain ⟨q, hq, hv⟩ := h
  have hqm := List.mem_of_find?_eq_some hq
  have hqk : q.1 = k := by simpa using List.find?_some hq
  have : q = (k, v) := by
    obtain ⟨a, b⟩ := q
    simp only at hqk hv
    rw [hqk, hv]
  rwa [this] at hqm

/-! ### Sync claim theorems -/

lemma jsMapHas_of_exists {l : List MObj} {k : String}
    (h : ∃ o ∈ l, o.name = k) : jsMapHas (jsMapEntries l) k = true := by
  obtain ⟨o, ho, he⟩ := h
  rw [jsMapHas_entries]
  exact List.any_eq_true.mpr ⟨o, ho, by simp [he]⟩

lemma jsMapHas_of_forall_ne {l : List MObj} {k : String}
    (h : ∀ o ∈ l, o.name ≠ k) : jsMapHas (jsMapEntries l) k = false := by
  rw [jsMapHas_entries]
  exact List.any_eq_false.mpr (fun o ho => by simpa using h o ho)

lemma exists_mem_entries_of_has {m : ObjMap} {k : String}
    (h : jsMapHas m k = true) : ∃ p ∈ m, p.1 = k := by
  obtain ⟨p, hp, hpk⟩ := List.any_eq_true.mp h
  exact ⟨p, hp, by simpa using hpk⟩

/-- C3 (amended): restricted to inputs whose *local* objects all carry a
defined `lastModified`, the delta computed by key satisfies the claim:
only-remote keys are added, only-local keys are deleted, keys in both with
different map values are modified, keys in both with equal values are in
none of the three, `hasChanges` iff some list is non-empty — and the
claim's concrete example evaluates as stated. -/
theorem detect_changes_delta (lo ro : List MObj) (k : String)
    (hdef : ∀ o ∈ lo, o.lastModified.isSome = true) :
    ((∃ o ∈ ro, o.name = k) ∧ (∀ o ∈ lo, o.name ≠ k) →
      k ∈ (detectChanges lo ro).added.map MObj.name) ∧
    ((∃ o ∈ lo, o.name = k) ∧ (∀ o ∈ ro, o.name ≠ k) →
      k ∈ (detectChanges lo ro).deleted) ∧
    ((∃ o ∈ lo, o.name = k) ∧ (∃ o ∈ ro, o.name = k) ∧
        jsMapGet (jsMapEntries lo) k ≠ jsMapGet (jsMapEntries ro) k →
      k ∈ (detectChanges lo ro).modified.map MObj.name) ∧
    ((∃ o ∈ lo, o.name = k) ∧ (∃ o ∈ ro, o.name = k) ∧
        jsMapGet (jsMapEntries lo) k = jsMapGet (jsMapEntries ro) k →
      k ∉ (detectChanges lo ro).added.map MObj.name ∧
      k ∉ (detectChanges lo ro).modified.map MObj.name ∧
      k ∉ (detectChanges lo ro).deleted) ∧
    ((detectChanges lo ro).hasChanges = true ↔
      ((detectChanges lo ro).added ≠ [] ∨ (detectChanges lo ro).deleted ≠ [] ∨
        (detectChanges lo ro).modified ≠ [])) ∧
    detectChanges [⟨"a", some 1⟩, ⟨"b", some 2⟩]
        [⟨"a", some 1⟩, ⟨"b", some 3⟩, ⟨"c", some 4⟩] =
      ⟨true, [⟨"c", some 4⟩], [], [⟨"b", some 3⟩]⟩ := by
  rw [detectChanges_eq lo ro]
  dsimp only
  refine ⟨?_, ?_, ?_, ?_, ?_, by decide⟩
  · rintro ⟨hr, hlabs⟩
    obtain ⟨p, hp, hpk⟩ := exists_mem_entries_of_has (jsMapHas_of_exists hr)
    have hget : jsMapGet (jsMapEntries lo) k = none :=
      jsMapGet_eq_none (jsMapHas_of_forall_ne hlabs)
    have hadd : isAddKey (jsMapEntries lo) p = true := by
      simp [isAddKey, localTime, hpk, hget]
    refine List.mem_map.mpr ⟨findObj ro p.1, ?_, by rw [findObj_name, hpk]⟩
    exact List.mem_map.mpr ⟨p, List.mem_filter.mpr ⟨hp, hadd⟩, rfl⟩
  · rintro ⟨hl, hrabs⟩
    obtain ⟨p, hp, hpk⟩ := exists_mem_entries_of_has (jsMapHas_of_exists hl)
    have hhas : jsMapHas (jsMapEntries ro) p.1 = false := by
      rw [hpk]; exact jsMapHas_of_forall_ne hrabs
    refine List.mem_map.mpr ⟨p, List.mem_filter.mpr ⟨hp, by simp [hhas]⟩, hpk⟩
  · rintro ⟨hl, hr, hne⟩
    obtain ⟨p, hp, hpk⟩ := exists_mem_entries_of_has (jsMapHas_of_exists hr)
    obtain ⟨q, hq, hqk⟩ := exists_mem_entries_of_has (jsMapHas_of_exists hl)
    have hgetl : jsMapGet (jsMapEntries lo) k = some q.2 := by
      rw [← hqk]; exact jsMapGet_of_mem (keysNodup_entries lo) hq
    have hgetr : jsMapGet (jsMapEntries ro) k = some p.2 := by
      rw [← hpk]; exact jsMapGet_of_mem (keysNodup_entries ro) hp
    obtain ⟨o, ho, _, hov⟩ := mem_entries_source hq
    obtain ⟨lt, hlt⟩ := Option.isSome_iff_exists.mp (hov ▸ hdef o ho)
    have hmod : isModKey (jsMapEntries lo) p = true := by
      have hpne : p.2 ≠ some lt := by
        intro hple
        apply hne
        rw [hgetl, hgetr, hple, hlt]
      simp [isModKey, hpk, localTime, hgetl, hlt, bne_iff_ne, hpne]
    refine List.mem_map.mpr ⟨findObj ro p.1, ?_, by rw [findObj_name, hpk]⟩
    exact List.mem_map.mpr ⟨p, List.mem_filter.mpr ⟨hp, hmod⟩, rfl⟩
  · rintro ⟨hl, hr, heq⟩
    obtain ⟨q, hq, hqk⟩ := exists_mem_entries_of_has (jsMapHas_of_exists hl)
    have hgetl : jsMapGet (jsMapEntries lo) k = some q.2 := by
      rw [← hqk]; exact jsMapGet_of_mem (keysNodup_entries lo) hq
    obtain ⟨o, ho, _, hov⟩ := mem_entries_source hq
    obtain ⟨lt, hlt⟩ := Option.isSome_iff_exists.mp (hov ▸ hdef o ho)
    have hgetr : jsMapGet (jsMapEntries ro) k = some (some lt) := by
      rw [← heq, hgetl, hlt]
    refine ⟨?_, ?_, ?_⟩
    · intro hmem
      obtain ⟨y', hy', hyn⟩ := List.mem_map.mp hmem
      obtain ⟨y, hyf, rfl⟩ := List.mem_map.mp hy'
      obtain ⟨hym, hya⟩ := List.mem_filter.mp hyf
      have hyk : y.1 = k := by rwa [findObj_name] at hyn
      simp [isAddKey, localTime, hyk, hgetl, hlt] at hya
    · intro hmem
      obtain ⟨y', hy', hyn⟩ := List.mem_map.mp hmem
      obtain ⟨y, hyf, rfl⟩ := List.mem_map.mp hy'
      obtain ⟨hym, hya⟩ := List.mem_filter.mp hyf
      have hyk : y.1 = k := by rwa [findObj_name] at hyn
      have hy2 : y.2 = some lt := by
        have := jsMapGet_of_mem (keysNodup_entries ro) hym
        rw [hyk, hgetr] at this
        exact (Option.some_inj.mp this).symm
      simp [isModKey, localTime, hyk, hgetl, hlt, hy2] at hya
    · intro hmem
      obtain ⟨y, hyf, hyk⟩ := List.mem_map.mp hmem
      obtain ⟨hym, hya⟩ := List.mem_filter.mp hyf
      rw [hyk] at hya
      rw [jsMapHas_of_exists hr] at hya
      simp at hya
  · rw [Bool.or_eq_true, List.any_eq_true, List.any_eq_true]
    simp only [ne_eq, List.map_eq_nil_iff, List.filter_eq_nil_iff, not_forall]
    constructor
    · rintro (⟨p, hp, hpc⟩ | ⟨p, hp, hpc⟩)
      · rcases (by simpa using hpc :
            isAddKey (jsMapEntries lo) p = true ∨ isModKey (jsMapEntries lo) p = true) with hc | hc
        · exact Or.inl ⟨p, hp, by simp [hc]⟩
        · exact Or.inr (Or.inr ⟨p, hp, by simp [hc]⟩)
      · exact Or.inr (Or.inl ⟨p, hp, by simp [hpc]⟩)
    · rintro (⟨p, hp, hpc⟩ | ⟨p, hp, hpc⟩ | ⟨p, hp, hpc⟩)
      · exact Or.inl ⟨p, hp, by simp at hpc; simp [hpc]⟩
      · exact Or.inr ⟨p, hp, by simpa using hpc⟩
      · exact Or.inl ⟨p, hp, by simp at hpc; simp [hpc]⟩

/-- C3 counterexample: with the key `a` present in *both* lists and with
*equal* `lastModified` on both sides (both `undefined`), `detectChanges`
nevertheless reports `a` as added and `hasChanges = true`, because
`if (!localModified)` also fires when the stored `lastModified` is
`undefined`. -/
theorem detect_changes_undefined_counterexample :
    detectChanges [⟨"a", none⟩] [⟨"a", none⟩] = ⟨true, [⟨"a", none⟩], [], []⟩ ∧
    jsMapGet (jsMapEntries [(⟨"a", none⟩ : MObj)]) "a" = some none ∧
    "a" ∈ (detectChanges [⟨"a", none⟩] [⟨"a", none⟩]).added.map MObj.name ∧
    (detectChanges [⟨"a", none⟩] [⟨"a", none⟩]).hasChanges = true := by
  decide

theorem detect_changes_delta_witness :
    (∀ o ∈ ([⟨"a", some 1⟩, ⟨"b", some 2⟩] : List MObj), o.lastModified.isSome = true) ∧
    (((∃ o ∈ ([⟨"a", some 1⟩, ⟨"b", some 3⟩, ⟨"c", some 4⟩] : List MObj), o.name = "c") ∧
        (∀ o ∈ ([⟨"a", some 1⟩, ⟨"b", some 2⟩] : List MObj), o.name ≠ "c") →
      "c" ∈ (detectChanges [⟨"a", some 1⟩, ⟨"b", some 2⟩]
        [⟨"a", some 1⟩, ⟨"b", some 3⟩, ⟨"c", some 4⟩]).added.map MObj.name) ∧
    ((∃ o ∈ ([⟨"a", some 1⟩, ⟨"b", some 2⟩] : List MObj), o.name = "c") ∧
        (∀ o ∈ ([⟨"a", some 1⟩, ⟨"b", some 3⟩, ⟨"c", some 4⟩] : List MObj), o.name ≠ "c") →
      "c" ∈ (detectChanges [⟨"a", some 1⟩, ⟨"b", some 2⟩]
        [⟨"a", some 1⟩, ⟨"b", some 3⟩, ⟨"c", some 4⟩]).deleted) ∧
    ((∃ o ∈ ([⟨"a", some 1⟩, ⟨"b", some 2⟩] : List MObj), o.name = "c") ∧
        (∃ o ∈ ([⟨"a", some 1⟩, ⟨"b", some 3⟩, ⟨"c", some 4⟩] : List MObj), o.name = "c") ∧
        jsMapGet (jsMapEntries [⟨"a", some 1⟩, ⟨"b", some 2⟩]) "c" ≠
          jsMapGet (jsMapEntries [⟨"a", some 1⟩, ⟨"b", some 3⟩, ⟨"c", some 4⟩]) "c" →
      "c" ∈ (detectChanges [⟨"a", some 1⟩, ⟨"b", some 2⟩]
        [⟨"a", some 1⟩, ⟨"b", some 3⟩, ⟨"c", some 4⟩]).modified.map MObj.name) ∧
    ((∃ o ∈ ([⟨"a", some 1⟩, ⟨"b", some 2⟩] : List MObj), o.name = "c") ∧
        (∃ o ∈ ([⟨"a", some 1⟩, ⟨"b", some 3⟩, ⟨"c", some 4⟩] : List MObj), o.name = "c") ∧
        jsMapGet (jsMapEntries [⟨"a", some 1⟩, ⟨"b", some 2⟩]) "c" =
          jsMapGet (jsMapEntries [⟨"a", some 1⟩, ⟨"b", some 3⟩, ⟨"c", some 4⟩]) "c" →
      "c" ∉ (detectChanges [⟨"a", some 1⟩, ⟨"b", some 2⟩]
        [⟨"a", some 1⟩, ⟨"b", some 3⟩, ⟨"c", some 4⟩]).added.map MObj.name ∧
      "c" ∉ (detectChanges [⟨"a", some 1⟩, ⟨"b", some 2⟩]
        [⟨"a", some 1⟩, ⟨"b", some 3⟩, ⟨"c", some 4⟩]).modified.map MObj.name ∧
      "c" ∉ (detectChanges [⟨"a", some 1⟩, ⟨"b", some 2⟩]
        [⟨"a", some 1⟩, ⟨"b", some 3⟩, ⟨"c", some 4⟩]).deleted) ∧
    ((detectChanges [⟨"a", some 1⟩, ⟨"b", some 2⟩]
        [⟨"a", some 1⟩, ⟨"b", some 3⟩, ⟨"c", some 4⟩]).hasChanges = true ↔
      ((detectChanges [⟨"a", some 1⟩, ⟨"b", some 2⟩]
          [⟨"a", some 1⟩, ⟨"b", some 3⟩, ⟨"c", some 4⟩]).added ≠ [] ∨
        (detectChanges [⟨"a", some 1⟩, ⟨"b", some 2⟩]
          [⟨"a", some 1⟩, ⟨"b", some 3⟩, ⟨"c", some 4⟩]).deleted ≠ [] ∨
        (detectChanges [⟨"a", some 1⟩, ⟨"b", some 2⟩]
          [⟨"a", some 1⟩, ⟨"b", some 3⟩, ⟨"c", some 4⟩]).modified ≠ [])) ∧
    detectChanges [⟨"a", some 1⟩, ⟨"b", some 2⟩]
        [⟨"a", some 1⟩, ⟨"b", some 3⟩, ⟨"c", some 4⟩] =
      ⟨true, [⟨"c", some 4⟩], [], [⟨"b", some 3⟩]⟩) :=
  ⟨by decide,
    detect_changes_delta [⟨"a", some 1⟩, ⟨"b", some 2⟩]
      [⟨"a", some 1⟩, ⟨"b", some 3⟩, ⟨"c", some 4⟩] "c" (by decide)⟩

/-- C4 (amended): for a list `L` whose objects all carry a defined
`lastModified`, syncing `L` against an identical remote listing yields
`hasChanges = false`, an empty delta, the unchanged object list, and an
untouched cache. -/
theorem sync_idempotent (L : List MObj) (cache : CacheMap)
    (hdef : ∀ o ∈ L, o.lastModified.isSome = true) :
    syncRun L (.ok L) cache = .ok ((L, ⟨false, [], [], []⟩), cache) := by
  have hadd : ∀ p ∈ jsMapEntries L, isAddKey (jsMapEntries L) p = false := by
    intro p hp
    have hg := jsMapGet_of_mem (keysNodup_entries L) hp
    obtain ⟨o, ho, _, hov⟩ := mem_entries_source hp
    obtain ⟨lt, hlt⟩ := Option.isSome_iff_exists.mp (hov ▸ hdef o ho)
    simp [isAddKey, localTime, hg, hlt]
  have hmod : ∀ p ∈ jsMapEntries L, isModKey (jsMapEntries L) p = false := by
    intro p hp
    have hg := jsMapGet_of_mem (keysNodup_entries L) hp
    obtain ⟨o, ho, _, hov⟩ := mem_entries_source hp
    obtain ⟨lt, hlt⟩ := Option.isSome_iff_exists.mp (hov ▸ hdef o ho)
    simp [isModKey, localTime, hg, hlt]
  have hhas : ∀ p ∈ jsMapEntries L, jsMapHas (jsMapEntries L) p.1 = true := by
    intro p hp
    exact List.any_eq_true.mpr ⟨p, hp, by simp⟩
  have hdc : detectChanges L L = ⟨false, [], [], []⟩ := by
    rw [detectChanges_eq]
    have h1 : (jsMapEntries L).filter (isAddKey (jsMapEntries L)) = [] :=
      List.filter_eq_nil_iff.mpr (fun p hp => by simp [hadd p hp])
    have h2 : (jsMapEntries L).filter (isModKey (jsMapEntries L)) = [] :=
      List.filter_eq_nil_iff.mpr (fun p hp => by simp [hmod p hp])
    have h3 : (jsMapEntries L).filter (fun p => !jsMapHas (jsMapEntries L) p.1) = [] :=
      List.filter_eq_nil_iff.mpr (fun p hp => by simp [hhas p hp])
    have h4 : (jsMapEntries L).any
        (fun p => isAddKey (jsMapEntries L) p || isModKey (jsMapEntries L) p) = false :=
      List.any_eq_false.mpr (fun p hp => by simp [hadd p hp, hmod p hp])
    have h5 : (jsMapEntries L).any (fun p => !jsMapHas (jsMapEntries L) p.1) = false :=
      List.any_eq_false.mpr (fun p hp => by simp [hhas p hp])
    rw [h1, h2, h3, h4, h5]
    rfl
  simp [syncRun, hdc]

theorem sync_idempotent_witness :
    (∀ o ∈ ([⟨"a", some 1⟩] : List MObj), o.lastModified.isSome = true) ∧
    syncRun [⟨"a", some 1⟩] (.ok [⟨"a", some 1⟩]) [("a", ⟨"u", 0, 1⟩)] =
      .ok (([⟨"a", some 1⟩], ⟨false, [], [], []⟩), [("a", ⟨"u", 0, 1⟩)]) :=
  ⟨by decide, sync_idempotent [⟨"a", some 1⟩] [("a", ⟨"u", 0, 1⟩)] (by decide)⟩

/-- C4 counterexample: against a remote listing literally identical to the
local one (`[{a, undefined}]`, same key and same `lastModified`), `sync`
reports `hasChanges = true` with `a` added, so idempotence fails when a
`lastModified` is `undefined`. -/
theorem sync_not_idempotent_undefined :
    syncRun [(⟨"a", none⟩ : MObj)] (.ok [⟨"a", none⟩]) [] =
      .ok (([⟨"a", none⟩], ⟨true, [⟨"a", none⟩], [], []⟩), []) ∧
    (detectChanges [(⟨"a", none⟩ : MObj)] [⟨"a", none⟩]).hasChanges ≠ false :=
  ⟨rfl, by decide⟩

/-! ## Search engine (`SearchService` in `src/services/SearchService.ts`) -/

/-- The character class of `/[()[?+]/` in
`SearchService.convertWildcardToRegex`: `(`, `)`, `[`, `?`, `+`. -/
def searchSpecialChar (c : Char) : Bool :=
  c == '(' || c == ')' || c == '[' || c == '?' || c == '+'

/-- Models `const hasSpecialChars = /[()[?+]/.test(pattern)`. -/
def hasSpecialChars (p : List Char) : Bool :=
  p.any searchSpecialChar

/-- Models `SearchService.convertWildcardToRegex`, on the pattern's character
list: `*x*` becomes `.*x.*`, `*x` becomes `x.*` (`slice(1)`), `x*` becomes
`.*x` (`slice(0,-1)`); patterns containing one of the special characters
are returned unchanged. -/
def convertWildcardToRegex (p : List Char) : List Char :=
  if !hasSpecialChars p then
    if p.head? == some '*' && p.getLast? == some '*' then
      '.' :: '*' :: ((p.drop 1).dropLast ++ ['.', '*'])
    else if p.head? == some '*' then
      p.drop 1 ++ ['.', '*']
    else if p.getLast? == some '*' then
      '.' :: '*' :: p.dropLast
    else p
  else p

/-- A regex token: `.` or a literal character. -/
inductive RTok where
  | dot : RTok
  | lit : Char → RTok
deriving Repr, DecidableEq

/-- A regex atom, optionally starred. -/
structure RAtom where
  tok : RTok
  star : Bool
deriving Repr, DecidableEq

/-- Characters with regex meaning that lie outside the modelled fragment
(grouping, classes, quantifiers other than `*`, alternation, anchors,
escapes; `\x7b`/`\x7d` are the brace quantifier delimiters). -/
def unsupportedChar (c : Char) : Bool :=
  c == '(' || c == ')' || c == '[' || c == ']' || c == '\x7b' || c == '\x7d' ||
  c == '?' || c == '+' || c == '\\' || c == '|' || c == '^' || c == '$'

/-- Maps `.` to the wildcard token; everything else in the fragment is literal. -/
def mkTok (c : Char) : RTok :=
  if c == '.' then RTok.dot else RTok.lit c

/-- One-character-at-a-time regex compiler, carrying the pending previous
atom so a following `*` can attach to it. -/
def parseRegexAux : List Char → Option RAtom → Option (List RAtom)
  | [], none => some []
  | [], some a => some [a]
  | c :: rest, prev =>
    if c == '*' then
      match prev with
      | none => none
      | some a =>
        if a.star then none
        else (parseRegexAux rest none).map (fun l => ⟨a.tok, true⟩ :: l)
    else if unsupportedChar c then none
    else
      match prev with
      | none => parseRegexAux rest (some ⟨mkTok c, false⟩)
      | some a => (parseRegexAux rest (some ⟨mkTok c, false⟩)).map (fun l => a :: l)

/-- Models the JavaScript `new RegExp(pattern)` compiler on the fragment
consisting of literal characters, `.`, and `*` applied to the previous
atom.  `none` models a thrown `SyntaxError` (`*` with nothing to repeat)
or a pattern outside the fragment. -/
def parseRegex (p : List Char) : Option (List RAtom) :=
  parseRegexAux p none

/-- Single-token match under the `'i'` flag: literals compare
case-insensitively; `.` matches everything except line terminators. -/
def atomMatch (t : RTok) (c : Char) : Bool :=
  match t with
  | RTok.dot => !(c == '\n' || c == '\r' || c == ' ' || c == ' ')
  | RTok.lit a => a.toLower == c.toLower

/-- The remainders of `s` reachable by consuming zero or more characters
that each match the starred token `t` (the choices `t*` offers). -/
def starSuffixes (t : RTok) : List Char → List (List Char)
  | [] => [[]]
  | c :: s2 => (c :: s2) :: (if atomMatch t c then starSuffixes t s2 else [])

/-- Does some *initial segment* of `s` match the atom list?  (The right
end is free because `RegExp.test` succeeds on any matching substring.)
A starred atom consumes any number of matching characters. -/
def rxMatchHere : List RAtom → List Char → Bool
  | [], _ => true
  | a :: atoms, s =>
    if a.star then
      (starSuffixes a.tok s).any (fun t => rxMatchHere atoms t)
    else
      match s with
      | [] => false
      | c :: s2 => atomMatch a.tok c && rxMatchHere atoms s2

/-- Unanchored search: `RegExp.test` succeeds iff the pattern matches at
some start position. -/
def rxSearch (atoms : List RAtom) : List Char → Bool
  | [] => rxMatchHere atoms []
  | c :: s2 => rxMatchHere atoms (c :: s2) || rxSearch atoms s2

/-- Models `new RegExp(pattern, 'i').test(url)`: `none` models a compile error. -/
def jsRegexTest (pattern url : List Char) : Option Bool :=
  (parseRegex pattern).map (fun atoms => rxSearch atoms url)

/-- The regex test that `SearchService.regexSearch` applies to each URL:
wildcard conversion followed by case-insensitive unanchored test. -/
def wildcardMatch (query url : List Char) : Option Bool :=
  jsRegexTest (convertWildcardToRegex query) url

/-- Case-fold a character list (the effect of the `'i'` flag). -/
def lowerl (s : List Char) : List Char :=
  s.map Char.toLower

/-- Holds when `s` contains `x`, case-insensitively. -/
def containsCI (x s : List Char) : Bool :=
  decide (lowerl x <:+: lowerl s)

/-- A query character that is not a regex metacharacter at all (the claim's
"no regex metacharacters other than a leading/trailing `*`"). -/
def plainChar (c : Char) : Bool :=
  !(unsupportedChar c || c == '*' || c == '.' || c == '/')

/-- The atom list a metacharacter-free string compiles to. -/
def litAtoms (x : List Char) : List RAtom :=
  x.map (fun c => ⟨RTok.lit c, false⟩)

/-! ### Regex lemmas -/

lemma plainChar_parts {c : Char} (h : plainChar c = true) :
    unsupportedChar c = false ∧ (c == '*') = false ∧ (c == '.') = false := by
  simp only [plainChar, Bool.not_eq_true', Bool.or_eq_false_iff] at h
  exact ⟨h.1.1.1, h.1.1.2, h.1.2⟩

lemma plain_not_special {c : Char} (h : plainChar c = true) :
    searchSpecialChar c = false := by
  have hu := (plainChar_parts h).1
  simp only [unsupportedChar, Bool.or_eq_false_iff] at hu
  simp only [searchSpecialChar, Bool.or_eq_false_iff]
  tauto

lemma hasSpecialChars_eq_false {p : List Char}
    (hp : ∀ c ∈ p, c = '*' ∨ plainChar c = true) :
    hasSpecialChars p = false := by
  apply List.any_eq_false.mpr
  intro c hc
  rcases hp c hc with rfl | h
  · decide
  · simp [plain_not_special h]

lemma mkTok_plain {c : Char} (h : plainChar c = true) : mkTok c = RTok.lit c := by
  rw [mkTok, if_neg]
  simp [(plainChar_parts h).2.2]

lemma parseRegexAux_someShift (s : List Char) (a : RAtom) (hs : s.head? ≠ some '*') :
    parseRegexAux s (some a) = (parseRegexAux s none).map (fun l => a :: l) := by
  cases s with
  | nil => rfl
  | cons c rest =>
    have hc : (c == '*') = false := by
      simp only [List.head?] at hs
      simpa using fun he => hs (by rw [he])
    by_cases hu : unsupportedChar c = true
    · simp [parseRegexAux, hc, hu]
    · simp [parseRegexAux, hc, hu]

lemma parseRegex_lit_append (x r : List Char) (hx : ∀ c ∈ x, plainChar c = true)
    (hr : r.head? ≠ some '*') :
    parseRegex (x ++ r) = (parseRegex r).map (fun l => litAtoms x ++ l) := by
  induction x with
  | nil => simp [litAtoms, Option.map_id']
  | cons c x' ih =>
    have hc := hx c (List.mem_cons_self c x')
    have hparts := plainChar_parts hc
    have hhead : (x' ++ r).head? ≠ some '*' := by
      cases x' with
      | nil => simpa using hr
      | cons c2 x2 =>
        have hc2 := (plainChar_parts (hx c2 (by simp))).2.1
        simp only [List.cons_append, List.head?]
        intro hcontra
        rw [Option.some_inj.mp hcontra] at hc2
        simp at hc2
    have hstep : parseRegex ((c :: x') ++ r) =
        parseRegexAux (x' ++ r) (some ⟨mkTok c, false⟩) := by
      rw [List.cons_append]
      show parseRegexAux (c :: (x' ++ r)) none = _
      simp [parseRegexAux, hparts.2.1, hparts.1]
    rw [hstep, parseRegexAux_someShift _ _ hhead]
    show (parseRegex (x' ++ r)).map _ = _
    rw [ih (fun d hd => hx d (List.mem_cons_of_mem _ hd))]
    rw [Option.map_map]
    rcases parseRegex r with _ | l
    · rfl
    · simp [litAtoms, Function.comp, mkTok_plain hc]

lemma parseRegex_dotstar (r : List Char) :
    parseRegex ('.' :: '*' :: r) =
      (parseRegex r).map (fun l => (⟨RTok.dot, true⟩ : RAtom) :: l) := rfl

lemma starSuffixes_sub {t : RTok} {s u : List Char}
    (h : u ∈ starSuffixes t s) : u <:+ s := by
  induction s with
  | nil =>
    simp only [starSuffixes, List.mem_singleton] at h
    simp [h]
  | cons c s2 ih =>
    simp only [starSuffixes, List.mem_cons] at h
    rcases h with rfl | h
    · exact List.suffix_refl _
    · by_cases hm : atomMatch t c = true
      · rw [if_pos hm] at h
        exact (ih h).trans (List.suffix_cons c s2)
      · rw [if_neg hm] at h
        cases h

lemma self_mem_starSuffixes (t : RTok) (s : List Char) : s ∈ starSuffixes t s := by
  cases s <;> simp [starSuffixes]

lemma rxSearch_iff (atoms : List RAtom) (s : List Char) :
    rxSearch atoms s = true ↔ ∃ t, t <:+ s ∧ rxMatchHere atoms t = true := by
  induction s with
  | nil =>
    simp only [rxSearch]
    constructor
    · intro h
      exact ⟨[], List.suffix_refl _, h⟩
    · rintro ⟨t, hts, ht⟩
      rwa [List.suffix_nil.mp hts] at ht
  | cons c s2 ih =>
    simp only [rxSearch, Bool.or_eq_true, ih]
    constructor
    · rintro (h | ⟨t, hts, ht⟩)
      · exact ⟨c :: s2, List.suffix_refl _, h⟩
      · exact ⟨t, hts.trans (List.suffix_cons c s2), ht⟩
    · rintro ⟨t, hts, ht⟩
      rcases List.suffix_cons_iff.mp hts with rfl | hts2
      · exact Or.inl ht
      · exact Or.inr ⟨t, hts2, ht⟩

lemma rxMatchHere_dotstar_elim {atoms : List RAtom} {t : List Char}
    (h : rxMatchHere (⟨RTok.dot, true⟩ :: atoms) t = true) :
    ∃ u, u <:+ t ∧ rxMatchHere atoms u = true := by
  simp only [rxMatchHere, if_pos, List.any_eq_true] at h
  obtain ⟨u, hu, hmu⟩ := h
  exact ⟨u, starSuffixes_sub hu, hmu⟩

lemma rxMatchHere_dotstar_intro {atoms : List RAtom} {t : List Char}
    (h : rxMatchHere atoms t = true) :
    rxMatchHere (⟨RTok.dot, true⟩ :: atoms) t = true := by
  simp only [rxMatchHere, if_pos, List.any_eq_true]
  exact ⟨t, self_mem_starSuffixes _ _, h⟩

lemma rxSearch_dotstar_cons (atoms : List RAtom) (s : List Char) :
    rxSearch (⟨RTok.dot, true⟩ :: atoms) s = rxSearch atoms s := by
  rw [Bool.eq_iff_iff]
  simp only [rxSearch_iff]
  constructor
  · rintro ⟨t, hts, ht⟩
    obtain ⟨u, hut, hmu⟩ := rxMatchHere_dotstar_elim ht
    exact ⟨u, hut.trans hts, hmu⟩
  · rintro ⟨t, hts, ht⟩
    exact ⟨t, hts, rxMatchHere_dotstar_intro ht⟩

lemma rxMatchHere_litAtoms (x : List Char) :
    ∀ s : List Char,
    rxMatchHere (litAtoms x) s = List.isPrefixOf (lowerl x) (lowerl s) := by
  induction x with
  | nil =>
    intro s
    simp [litAtoms, rxMatchHere, lowerl, List.isPrefixOf]
  | cons c x' ih =>
    intro s
    cases s with
    | nil => simp [litAtoms, rxMatchHere, lowerl, List.isPrefixOf]
    | cons d s2 =>
      simp only [litAtoms, List.map_cons, rxMatchHere, atomMatch, lowerl,
        List.isPrefixOf, if_neg, Bool.false_eq_true, reduceIte]
      rw [show (List.map (fun c => (⟨RTok.lit c, false⟩ : RAtom)) x' : List RAtom) =
        litAtoms x' from rfl]
      rw [ih s2]
      rfl

lemma rxMatchHere_litAtoms_dotstar (x : List Char) :
    ∀ s : List Char,
    rxMatchHere (litAtoms x ++ [⟨RTok.dot, true⟩]) s =
      List.isPrefixOf (lowerl x) (lowerl s) := by
  induction x with
  | nil =>
    intro s
    have h : rxMatchHere ([] : List RAtom) s = true := rfl
    simp only [litAtoms, List.map_nil, List.nil_append, lowerl, List.isPrefixOf]
    exact rxMatchHere_dotstar_intro h
  | cons c x' ih =>
    intro s
    cases s with
    | nil => simp [litAtoms, rxMatchHere, lowerl, List.isPrefixOf]
    | cons d s2 =>
      simp only [litAtoms, List.map_cons, List.cons_append, rxMatchHere, atomMatch,
        lowerl, List.isPrefixOf, if_neg, Bool.false_eq_true, reduceIte, List.append_eq]
      have hih := ih s2
      simp only [litAtoms, lowerl] at hih
      rw [hih]

lemma exists_suffixMatch_iff (x s : List Char) :
    (∃ t, t <:+ s ∧ List.isPrefixOf (lowerl x) (lowerl t) = true) ↔
      containsCI x s = true := by
  rw [containsCI, decide_eq_true_eq]
  constructor
  · rintro ⟨t, hts, hpre⟩
    have h1 : lowerl x <+: lowerl t := by simpa using hpre
    exact List.infix_iff_prefix_suffix.mpr ⟨lowerl t, h1, List.IsSuffix.map Char.toLower hts⟩
  · intro hinf
    obtain ⟨w, hw1, hw2⟩ := List.infix_iff_prefix_suffix.mp hinf
    obtain ⟨pre, hpre⟩ := hw2
    have hmap : List.map Char.toLower s = pre ++ w := hpre.symm
    obtain ⟨s₁, s₂, hs, _, h₂⟩ := List.map_eq_append_iff.mp hmap
    refine ⟨s₂, ⟨s₁, hs.symm⟩, ?_⟩
    have : lowerl x <+: lowerl s₂ := by rw [lowerl, lowerl, h₂]; exact hw1
    simpa using this

lemma rxSearch_litAtoms (x s : List Char) :
    rxSearch (litAtoms x) s = containsCI x s := by
  rw [Bool.eq_iff_iff, rxSearch_iff]
  rw [← exists_suffixMatch_iff]
  constructor
  · rintro ⟨t, hts, ht⟩
    exact ⟨t, hts, by rw [← rxMatchHere_litAtoms]; exact ht⟩
  · rintro ⟨t, hts, ht⟩
    exact ⟨t, hts, by rw [rxMatchHere_litAtoms]; exact ht⟩

lemma rxSearch_litAtoms_dotstar (x s : List Char) :
    rxSearch (litAtoms x ++ [⟨RTok.dot, true⟩]) s = containsCI x s := by
  rw [Bool.eq_iff_iff, rxSearch_iff]
  rw [← exists_suffixMatch_iff]
  constructor
  · rintro ⟨t, hts, ht⟩
    exact ⟨t, hts, by rw [← rxMatchHere_litAtoms_dotstar]; exact ht⟩
  · rintro ⟨t, hts, ht⟩
    exact ⟨t, hts, by rw [rxMatchHere_litAtoms_dotstar]; exact ht⟩

/-! ### Wildcard conversion branch lemmas -/

lemma getLast?_ne_star {x : List Char} (hx : ∀ c ∈ x, plainChar c = true) :
    x.getLast? ≠ some '*' := by
  intro hlast
  have hmem := List.mem_of_getLast?_eq_some hlast
  have := (plainChar_parts (hx '*' hmem)).2.1
  simp at this

lemma convert_both {x : List Char} (hx : ∀ c ∈ x, plainChar c = true) :
    convertWildcardToRegex ('*' :: x ++ ['*']) = '.' :: '*' :: (x ++ ['.', '*']) := by
  have hspec : hasSpecialChars ('*' :: x ++ ['*']) = false := by
    apply hasSpecialChars_eq_false
    intro c hc
    rcases List.mem_cons.mp hc with rfl | hc2
    · exact Or.inl rfl
    · rcases List.mem_append.mp hc2 with hc3 | hc3
      · exact Or.inr (hx c hc3)
      · exact Or.inl (by simpa using hc3)
  have hlast : ('*' :: x ++ ['*']).getLast? = some '*' := by
    show (('*' :: x) ++ ['*']).getLast? = some '*'
    exact List.getLast?_concat _
  unfold convertWildcardToRegex
  rw [hspec, hlast]
  simp [List.dropLast_concat]

lemma convert_lead {x : List Char} (hx : ∀ c ∈ x, plainChar c = true)
    (hne : x ≠ []) :
    convertWildcardToRegex ('*' :: x) = x ++ ['.', '*'] := by
  have hspec : hasSpecialChars ('*' :: x) = false := by
    apply hasSpecialChars_eq_false
    intro c hc
    rcases List.mem_cons.mp hc with rfl | hc2
    · exact Or.inl rfl
    · exact Or.inr (hx c hc2)
  have hlast : (('*' :: x).getLast? == some '*') = false := by
    obtain ⟨c, x', rfl⟩ : ∃ c x', x = c :: x' := by
      cases x with
      | nil => exact absurd rfl hne
      | cons c x' => exact ⟨c, x', rfl⟩
    rw [List.getLast?_cons_cons]
    simpa using getLast?_ne_star hx
  unfold convertWildcardToRegex
  rw [hspec, hlast]
  simp

lemma convert_trail {x : List Char} (hx : ∀ c ∈ x, plainChar c = true)
    (hne : x ≠ []) :
    convertWildcardToRegex (x ++ ['*']) = '.' :: '*' :: x := by
  have hspec : hasSpecialChars (x ++ ['*']) = false := by
    apply hasSpecialChars_eq_false
    intro c hc
    rcases List.mem_append.mp hc with hc2 | hc2
    · exact Or.inr (hx c hc2)
    · exact Or.inl (by simpa using hc2)
  have hhead : ((x ++ ['*']).head? == some '*') = false := by
    obtain ⟨c, x', rfl⟩ : ∃ c x', x = c :: x' := by
      cases x with
      | nil => exact absurd rfl hne
      | cons c x' => exact ⟨c, x', rfl⟩
    have := (plainChar_parts (hx c (by simp))).2.1
    simpa using this
  have hlast : (x ++ ['*']).getLast? = some '*' := List.getLast?_concat x
  unfold convertWildcardToRegex
  rw [hspec, hhead, hlast]
  simp [List.dropLast_concat]

/-- C2 (amended): for a query built from a metacharacter-free non-empty
core `x` with a leading and/or trailing `*`, all three wildcard forms
`*x*`, `*x` and `x*` match exactly the URLs *containing* `x`
(case-insensitively).  The rewritten patterns `.*x.*`, `x.*` and `.*x`
carry no anchors, and `RegExp.test` is an unanchored search, so the three
forms are indistinguishable. -/
theorem wildcard_contains_semantics (x url : List Char)
    (hx : ∀ c ∈ x, plainChar c = true) (hne : x ≠ []) :
    wildcardMatch ('*' :: x ++ ['*']) url = some (containsCI x url) ∧
    wildcardMatch ('*' :: x) url = some (containsCI x url) ∧
    wildcardMatch (x ++ ['*']) url = some (containsCI x url) := by
  have hdotstar : (['.', '*'] : List Char).head? ≠ some '*' := by decide
  have hnilstar : ([] : List Char).head? ≠ some '*' := by decide
  have h1 : parseRegex ['.', '*'] = some [⟨RTok.dot, true⟩] := rfl
  have h2 : parseRegex [] = some [] := rfl
  refine ⟨?_, ?_, ?_⟩
  · unfold wildcardMatch jsRegexTest
    rw [convert_both hx, parseRegex_dotstar, parseRegex_lit_append x ['.', '*'] hx hdotstar,
      h1]
    simp only [Option.map_some']
    rw [rxSearch_dotstar_cons, rxSearch_litAtoms_dotstar]
  · unfold wildcardMatch jsRegexTest
    rw [convert_lead hx hne, parseRegex_lit_append x ['.', '*'] hx hdotstar, h1]
    simp only [Option.map_some']
    rw [rxSearch_litAtoms_dotstar]
  · unfold wildcardMatch jsRegexTest
    have h3 : parseRegex x = some (litAtoms x) := by
      have := parseRegex_lit_append x [] hx hnilstar
      simpa [h2] using this
    rw [convert_trail hx hne, parseRegex_dotstar, h3]
    simp only [Option.map_some']
    rw [rxSearch_dotstar_cons, rxSearch_litAtoms]

/-- C2 counterexample: the claim says `"cat*"` is a prefix match and does
not match `"bigcat.png"`; in the code `"cat*"` rewrites to `.*cat` and the
unanchored case-insensitive test *does* match `"bigcat.png"`. -/
theorem wildcard_not_anchored_counterexample :
    wildcardMatch ("cat*".data) ("bigcat.png".data) = some true ∧
    convertWildcardToRegex ("cat*".data) = ".*cat".data := by
  constructor
  · decide
  · decide

theorem wildcard_contains_semantics_witness :
    (∀ c ∈ ("cat".data), plainChar c = true) ∧ ("cat".data ≠ []) ∧
    (wildcardMatch ('*' :: "cat".data ++ ['*']) ("catfood.png".data) =
        some (containsCI ("cat".data) ("catfood.png".data)) ∧
      wildcardMatch ('*' :: "cat".data) ("catfood.png".data) =
        some (containsCI ("cat".data) ("catfood.png".data)) ∧
      wildcardMatch ("cat".data ++ ['*']) ("catfood.png".data) =
        some (containsCI ("cat".data) ("catfood.png".data))) ∧
    containsCI ("cat".data) ("catfood.png".data) = true ∧
    containsCI ("cat".data) (".../mycatpic.png".data) = true ∧
    containsCI ("cat".data) ("bigcat.png".data) = true :=
  ⟨by decide, by decide,
    wildcard_contains_semantics ("cat".data) ("catfood.png".data) (by decide) (by decide),
    by decide, by decide, by decide⟩

/-! ## Lazy image loader (`src/services/LazyImageService.ts`) -/

/-- Models `options.retryCount ?? 3`. -/
def defaultRetryCount : Nat := 3

/-- Models `options.timeout ?? 8000` (per-attempt timeout in ms). -/
def defaultTimeout : Nat := 8000

/-- The DOM-visible state of one `<img>` element: its `data-src`
attribute, its `src`, and its class list. -/
structure ImgState where
  datasetSrc : Option String
  src : String
  classes : List String
deriving Repr, DecidableEq

/-- Models `getPlaceholderUrl()`: the generated `data:` URL of the inline SVG
fallback graphic; the `btoa` payload is modelled as a fixed string since
only its identity matters to the claims. -/
def getPlaceholderUrl : String :=
  "data:image/svg+xml;base64,<svg-placeholder-payload>"

/-- Models `Math.min(1000 * Math.pow(2, attempt - 1), 3000)`: the backoff delay
scheduled after failed attempt number `attempt`. -/
def backoffDelay (attempt : Nat) : Nat :=
  min (1000 * 2 ^ (attempt - 1)) 3000

/-- The `for (let attempt = 1; attempt <= maxRetries; attempt++)` loop of
`loadImageWithRetry` when every `loadImage` call fails, indexed by the
current attempt number and the number of attempts still to come after it.
Returns (number of load attempts performed, delays slept between
attempts, final element state).  On the last attempt the element gets the
`error` class and the placeholder `src`, and the function returns. -/
def retryRec (img : ImgState) (attempt : Nat) : Nat → Nat × List Nat × ImgState
  | 0 =>
    (1, [], { img with classes := img.classes ++ ["error"], src := getPlaceholderUrl })
  | n + 1 =>
    let r := retryRec img (attempt + 1) n
    (r.1 + 1, backoffDelay attempt :: r.2.1, r.2.2)

/-- Models `loadImageWithRetry(url, img, maxRetries, timeout)` with every attempt
failing: the loop starts at attempt 1; with `maxRetries = 0` the body
never runs. -/
def loadImageWithRetryAllFail (maxRetries : Nat) (img : ImgState) :
    Nat × List Nat × ImgState :=
  if maxRetries = 0 then (0, [], img)
  else retryRec img 1 (maxRetries - 1)

/-- The `IntersectionObserver` callback for one entry: a load is started
only when the entry is intersecting, `img.dataset.src` is present, and
differs from the current `src`; in that case `data-src` is removed and the
element unobserved.  Returns whether `loadImageWithRetry` was invoked, and
the element state after the callback. -/
def handleIntersection (isIntersecting : Bool) (img : ImgState) : Bool × ImgState :=
  if isIntersecting then
    match img.datasetSrc with
    | some src =>
      if img.src ≠ src then (true, { img with datasetSrc := none })
      else (false, img)
    | none => (false, img)
  else (false, img)

/-- The full failing load of one element: the callback removed `data-src`
and unobserved the element, and the retry loop ran with every attempt
failing. -/
def triggerLoadAllFail (maxRetries : Nat) (img : ImgState) :
    Nat × List Nat × ImgState :=
  loadImageWithRetryAllFail maxRetries { img with datasetSrc := none }

lemma retryRec_eq (img : ImgState) : ∀ (n a : Nat),
    retryRec img a n =
      (n + 1, (List.range' a n).map backoffDelay,
       { img with classes := img.classes ++ ["error"], src := getPlaceholderUrl }) := by
  intro n
  induction n with
  | zero => intro a; rfl
  | succ n ih =>
    intro a
    simp only [retryRec, ih (a + 1), List.range'_succ, List.map_cons]

/-- C7: a resource failing every attempt triggers exactly `maxRetries`
load attempts with `min(1000·2^(k−1), 3000)` ms between attempt `k` and
`k+1`; afterwards the element carries the `error` class and the generated
placeholder as `src`, its `data-src` is gone, and no later intersection
event starts another load.  The default retry bound is 3. -/
theorem lazy_retry_all_fail (m : Nat) (img : ImgState) (hm : 1 ≤ m) :
    (triggerLoadAllFail m img).1 = m ∧
    (triggerLoadAllFail m img).2.1 =
      (List.range (m - 1)).map (fun k => min (1000 * 2 ^ k) 3000) ∧
    "error" ∈ (triggerLoadAllFail m img).2.2.classes ∧
    (triggerLoadAllFail m img).2.2.src = getPlaceholderUrl ∧
    (triggerLoadAllFail m img).2.2.datasetSrc = none ∧
    (∀ b, (handleIntersection b (triggerLoadAllFail m img).2.2).1 = false) ∧
    defaultRetryCount = 3 := by
  have hm0 : ¬ (m = 0) := by omega
  have hkey : triggerLoadAllFail m img =
      (m, (List.range' 1 (m - 1)).map backoffDelay,
       { img with datasetSrc := none, classes := img.classes ++ ["error"], src := getPlaceholderUrl }) := by
    unfold triggerLoadAllFail loadImageWithRetryAllFail
    rw [if_neg hm0, retryRec_eq]
    have : m - 1 + 1 = m := by omega
    rw [this]
  have hdelays : (List.range' 1 (m - 1)).map backoffDelay =
      (List.range (m - 1)).map (fun k => min (1000 * 2 ^ k) 3000) := by
    rw [List.range'_eq_map_range, List.map_map]
    apply List.map_congr_left
    intro i _
    simp [backoffDelay, Function.comp, Nat.add_sub_cancel_left]
  rw [hkey]
  refine ⟨rfl, by simpa using hdelays, by simp, rfl, rfl, ?_, rfl⟩
  intro b
  cases b <;> simp [handleIntersection]

theorem lazy_retry_all_fail_witness :
    (1 : Nat) ≤ 3 ∧
    ((triggerLoadAllFail 3 ⟨some "u", "", []⟩).1 = 3 ∧
      (triggerLoadAllFail 3 ⟨some "u", "", []⟩).2.1 =
        (List.range (3 - 1)).map (fun k => min (1000 * 2 ^ k) 3000) ∧
      "error" ∈ (triggerLoadAllFail 3 ⟨some "u", "", []⟩).2.2.classes ∧
      (triggerLoadAllFail 3 ⟨some "u", "", []⟩).2.2.src = getPlaceholderUrl ∧
      (triggerLoadAllFail 3 ⟨some "u", "", []⟩).2.2.datasetSrc = none ∧
      (∀ b, (handleIntersection b (triggerLoadAllFail 3 ⟨some "u", "", []⟩).2.2).1 = false) ∧
      defaultRetryCount = 3) ∧
    (List.range (3 - 1)).map (fun k => min (1000 * 2 ^ k) 3000) = [1000, 2000] :=
  ⟨by decide, lazy_retry_all_fail 3 ⟨some "u", "", []⟩ (by decide), by decide⟩

/-! ## Gallery view (`MinioGalleryView`) and search/sync error handling -/

/-- Models `IMAGE_EXTENSIONS` (`src/utils/FileUtils.ts`). -/
def IMAGE_EXTENSIONS : List (List Char) :=
  [".jpg".data, ".jpeg".data, ".png".data, ".gif".data, ".webp".data,
   ".bmp".data, ".svg".data]

/-- Models `isImageFile(filename)`: lower-cased name ends with one of the image
extensions. -/
def isImageFile (filename : String) : Bool :=
  IMAGE_EXTENSIONS.any (fun ext => ext.isSuffixOf (lowerl filename.data))

/-- Models `SearchService.textSearch`: case-insensitive substring match of the
query against each image object's URL.  The per-session `allImageUrls`
memo is omitted: it only caches the pure `generateUrl`. -/
def textSearch (objects : List MObj) (searchText : List Char)
    (genUrl : String → List Char) : List MObj :=
  objects.filter (fun o => isImageFile o.name && containsCI searchText (genUrl o.name))

/-- Models `SearchService.regexSearch`: compile the wildcard-converted pattern
(case-insensitively); a compile failure is caught, reported and rethrown
as "Invalid regex pattern"; otherwise keep the image objects whose URL
the regex matches. -/
def regexSearch (objects : List MObj) (searchText : List Char)
    (genUrl : String → List Char) : Except String (List MObj) :=
  match parseRegex (convertWildcardToRegex searchText) with
  | none => .error "Invalid regex pattern"
  | some atoms =>
    .ok (objects.filter (fun o => isImageFile o.name && rxSearch atoms (genUrl o.name)))

/-- JS `String.prototype.trim`: strip leading and trailing whitespace. -/
def jsTrim (s : List Char) : List Char :=
  (((s.dropWhile Char.isWhitespace).reverse.dropWhile Char.isWhitespace).reverse)

/-- Models `SearchService.search(objects, searchText, useRegex)`: an empty
(trimmed) query returns the input set unfiltered. -/
def searchModel (objects : List MObj) (searchText : String) (useRegex : Bool)
    (genUrl : String → List Char) : Except String (List MObj) :=
  if jsTrim searchText.data = [] then .ok objects
  else if useRegex then regexSearch objects searchText.data genUrl
  else .ok (textSearch objects searchText.data genUrl)

/-- The fields of `GalleryState` (`src/types/gallery.ts`) the claims are
about, plus the `isLoading` guard. -/
structure GalleryState where
  remoteObjects : List MObj
  visibleImages : List MObj
  isSearching : Bool
  savedSearchTerm : String
  useRegexSearch : Bool
  isLoading : Bool
deriving Repr, DecidableEq

/-- Models `MinioGalleryView.handleSearch(searchText)`: bails out while loading;
records the search term; on an empty query restores the unfiltered image
set; otherwise runs the search and commits `state.visibleImages` only
after it returns — a thrown search error is caught and shown as a
`Notice` (the returned message), leaving `visibleImages` untouched. -/
def handleSearch (st : GalleryState) (searchText : String)
    (genUrl : String → List Char) : GalleryState × Option String :=
  if st.isLoading then (st, none)
  else
    let st1 := { st with isSearching := true, savedSearchTerm := searchText }
    if jsTrim searchText.data = [] then
      let objs := st1.remoteObjects.filter (fun o => isImageFile o.name)
      ({ st1 with isSearching := false, savedSearchTerm := "", visibleImages := objs }, none)
    else
      match searchModel st1.remoteObjects searchText st1.useRegexSearch genUrl with
      | .ok objs => ({ st1 with visibleImages := objs }, none)
      | .error msg => (st1, some msg)

/-- Stable insertion for the descending-by-`lastModified` sort of
`loadGallery` (`(b.lastModified?.getTime() || 0) - (a...)`, stable). -/
def insertByMTimeDesc (x : MObj) : List MObj → List MObj
  | [] => [x]
  | y :: ys =>
    if x.lastModified.getD 0 < y.lastModified.getD 0 then y :: insertByMTimeDesc x ys
    else x :: y :: ys

/-- Models `objects.sort((a, b) => (b.lastModified?.getTime() || 0) - (a.lastModified?.getTime() || 0))`. -/
def sortByMTimeDesc (l : List MObj) : List MObj :=
  l.foldr insertByMTimeDesc []

/-- The `try/catch/finally` body of `MinioGalleryView.loadGallery` with
the fetch outcome supplied: bails out while loading; on sync failure the
spinner is replaced by "Load failed" (third component `true`) and no state
or cache is touched; on success the new listing and its filtered, sorted
image set are committed and `isLoading` is reset. -/
def loadGalleryModel (st : GalleryState) (cache : CacheMap)
    (fetched : Except String (List MObj)) : GalleryState × CacheMap × Bool :=
  if st.isLoading then (st, cache, false)
  else
    match syncRun st.remoteObjects fetched cache with
    | .error _ => ({ st with isLoading := false }, cache, true)
    | .ok ((objects, _changes), cache2) =>
      let imageObjects := sortByMTimeDesc (objects.filter (fun o => isImageFile o.name))
      ({ st with remoteObjects := objects, visibleImages := imageObjects, isSearching := false, isLoading := false }, cache2, false)

/-- C8: a regex-mode query whose pattern does not compile makes the search
raise the descriptive "Invalid regex pattern" error; `handleSearch`
surfaces it and leaves the previously visible set (and the known-object
snapshot) unchanged. -/
theorem search_error_preserves_visible (st : GalleryState) (q : String)
    (genUrl : String → List Char)
    (hload : st.isLoading = false)
    (hre : st.useRegexSearch = true)
    (htrim : ¬ (jsTrim q.data = []))
    (hbad : parseRegex (convertWildcardToRegex q.data) = none) :
    handleSearch st q genUrl =
      ({ st with isSearching := true, savedSearchTerm := q }, some "Invalid regex pattern") ∧
    searchModel st.remoteObjects q st.useRegexSearch genUrl =
      .error "Invalid regex pattern" ∧
    (handleSearch st q genUrl).1.visibleImages = st.visibleImages ∧
    (handleSearch st q genUrl).1.remoteObjects = st.remoteObjects := by
  have hsm : searchModel st.remoteObjects q st.useRegexSearch genUrl =
      .error "Invalid regex pattern" := by
    unfold searchModel regexSearch
    rw [if_neg htrim, hre, if_pos rfl, hbad]
  have hhs : handleSearch st q genUrl =
      ({ st with isSearching := true, savedSearchTerm := q }, some "Invalid regex pattern") := by
    unfold handleSearch
    rw [if_neg (by simp [hload]), if_neg htrim]
    have : searchModel st.remoteObjects q st.useRegexSearch genUrl =
        .error "Invalid regex pattern" := hsm
    simp only [this]
  exact ⟨hhs, hsm, by rw [hhs], by rw [hhs]⟩

theorem search_error_preserves_visible_witness :
    ((⟨[⟨"a.png", some 1⟩], [⟨"a.png", some 1⟩], false, "", true, false⟩ :
        GalleryState).isLoading = false) ∧
    ((⟨[⟨"a.png", some 1⟩], [⟨"a.png", some 1⟩], false, "", true, false⟩ :
        GalleryState).useRegexSearch = true) ∧
    (¬ (jsTrim ("(" : String).data = [])) ∧
    (parseRegex (convertWildcardToRegex ("(" : String).data) = none) ∧
    (handleSearch ⟨[⟨"a.png", some 1⟩], [⟨"a.png", some 1⟩], false, "", true, false⟩
        "(" (fun _ => []) =
      ({ (⟨[⟨"a.png", some 1⟩], [⟨"a.png", some 1⟩], false, "", true, false⟩ :
          GalleryState) with isSearching := true, savedSearchTerm := "(" },
        some "Invalid regex pattern") ∧
      searchModel (⟨[⟨"a.png", some 1⟩], [⟨"a.png", some 1⟩], false, "", true,
          false⟩ : GalleryState).remoteObjects "("
        (⟨[⟨"a.png", some 1⟩], [⟨"a.png", some 1⟩], false, "", true,
          false⟩ : GalleryState).useRegexSearch (fun _ => []) =
        .error "Invalid regex pattern" ∧
      (handleSearch ⟨[⟨"a.png", some 1⟩], [⟨"a.png", some 1⟩], false, "", true, false⟩
          "(" (fun _ => [])).1.visibleImages =
        (⟨[⟨"a.png", some 1⟩], [⟨"a.png", some 1⟩], false, "", true,
          false⟩ : GalleryState).visibleImages ∧
      (handleSearch ⟨[⟨"a.png", some 1⟩], [⟨"a.png", some 1⟩], false, "", true, false⟩
          "(" (fun _ => [])).1.remoteObjects =
        (⟨[⟨"a.png", some 1⟩], [⟨"a.png", some 1⟩], false, "", true,
          false⟩ : GalleryState).remoteObjects) :=
  ⟨rfl, rfl, by decide, by decide,
    search_error_preserves_visible
      ⟨[⟨"a.png", some 1⟩], [⟨"a.png", some 1⟩], false, "", true, false⟩
      "(" (fun _ => []) rfl rfl (by decide) (by decide)⟩

/-- C9: when the remote listing fetch fails, the error propagates out of
`sync` unchanged, and the failed `loadGallery` call leaves the known
objects, the visible set and the cache exactly as they were (the failure
only surfaces as the "Load failed" indicator). -/
theorem sync_failure_preserves_state (st : GalleryState) (cache : CacheMap) (e : String)
    (hload : st.isLoading = false) :
    syncRun st.remoteObjects (.error e) cache = .error e ∧
    loadGalleryModel st cache (.error e) = (st, cache, true) := by
  constructor
  · rfl
  · obtain ⟨ro, vi, se, te, ur, lo⟩ := st
    simp only at hload
    unfold loadGalleryModel
    rw [hload]
    simp [syncRun]

theorem sync_failure_preserves_state_witness :
    ((⟨[⟨"a.png", some 1⟩], [⟨"a.png", some 1⟩], false, "", false, false⟩ :
        GalleryState).isLoading = false) ∧
    (syncRun (⟨[⟨"a.png", some 1⟩], [⟨"a.png", some 1⟩], false, "", false,
        false⟩ : GalleryState).remoteObjects (.error "network error")
        [("a.png", ⟨"url", 0, 3⟩)] = .error "network error" ∧
      loadGalleryModel
        ⟨[⟨"a.png", some 1⟩], [⟨"a.png", some 1⟩], false, "", false, false⟩
        [("a.png", ⟨"url", 0, 3⟩)] (.error "network error") =
        (⟨[⟨"a.png", some 1⟩], [⟨"a.png", some 1⟩], false, "", false, false⟩,
          [("a.png", ⟨"url", 0, 3⟩)], true)) :=
  ⟨rfl, sync_failure_preserves_state
    ⟨[⟨"a.png", some 1⟩], [⟨"a.png", some 1⟩], false, "", false, false⟩
    [("a.png", ⟨"url", 0, 3⟩)] "network error" rfl⟩
